import Mathlib

/-!
Verification of the WorksiteTeamAssigner core logic (src/src/app/page.tsx).

The assignment engine is embedded shallowly: free text is modelled as
`String` / `List Char`, the per-run team-load record as a function
`String → List String`, and the scheduling loop as structural recursion.
JavaScript string operations (`toLowerCase`, `trim`, `includes`,
`replace(/x/g, y)`, the two word-boundary team-count regexes, and the
stable `Array.prototype.sort`) are modelled by executable Lean functions
with the same observable behaviour on the inputs the program handles.
-/

/-- JS word character, as used by the regex metacharacter b: [A-Za-z0-9_]. -/
def isWordChar (c : Char) : Bool :=
  c.isAlphanum || c = '_'

/-- ASCII whitespace recognised by the JS regex metacharacter s. -/
def jsSpace (c : Char) : Bool :=
  c = ' ' || c = '\t' || c = '\n' || c = '\r' || c = '\x0b' || c = '\x0c'

/-- JS String.prototype.trim: strip leading and trailing whitespace. -/
def trimJS (l : List Char) : List Char :=
  ((l.dropWhile jsSpace).reverse.dropWhile jsSpace).reverse

/-- JS String.prototype.includes: substring containment. -/
def isSubstr (needle : List Char) : List Char → Bool
  | [] => needle.isEmpty
  | c :: rest => needle.isPrefixOf (c :: rest) || isSubstr needle rest

/-- Fuel-indexed worker for `replaceAll`; each step consumes at least
one character, so fuel equal to the input length is always enough. -/
def replaceAllFuel (needle repl : List Char) : Nat → List Char → List Char
  | 0, l => l
  | _ + 1, [] => []
  | fuel + 1, c :: rest =>
    if !needle.isEmpty && needle.isPrefixOf (c :: rest) then
      repl ++ replaceAllFuel needle repl fuel (rest.drop (needle.length - 1))
    else
      c :: replaceAllFuel needle repl fuel rest

/-- JS String.prototype.replace with a global literal pattern:
left-to-right, non-overlapping replacement of every occurrence. -/
def replaceAll (needle repl : List Char) (l : List Char) : List Char :=
  replaceAllFuel needle repl l.length l

/-- After the digit of the team-count regex: s*, then "team", then an
optional "s", then a word boundary.  (The backtracking of the optional
"s" collapses: when an "s" follows "team", the match succeeds exactly
when the character after the "s" is not a word character, because "s"
itself is a word character and blocks the boundary in the other branch.) -/
def matchAfterDigit (rest : List Char) : Bool :=
  let r := rest.dropWhile jsSpace
  ['t', 'e', 'a', 'm'].isPrefixOf r &&
    (match r.drop 4 with
     | 's' :: r2 => r2.isEmpty || !isWordChar (r2.headD ' ')
     | r2 => r2.isEmpty || !isWordChar (r2.headD ' '))

/-- Scan for the JS regex b<d>s*teams?b.  The Bool argument records
whether the current position sits at a word boundary (start of string or
previous character not a word character). -/
def hasTeamPhraseAux (d : Char) : Bool → List Char → Bool
  | _, [] => false
  | prevOk, c :: rest =>
    (prevOk && c = d && matchAfterDigit rest) || hasTeamPhraseAux d (!isWordChar c) rest

/-- Whether the JS regex b<d>s*teams?b matches somewhere in the text. -/
def hasTeamPhrase (d : Char) (l : List Char) : Bool :=
  hasTeamPhraseAux d true l

/-- The client record driving the assigner (ClientData in page.tsx).
The optional TS fields are modelled as `String`, with the empty string
standing for an absent value: every use in the core (`!input`,
`client.jobLength || ''`) treats `undefined` and `''` identically. -/
structure ClientData where
  name : String
  address : String
  travelTime : String
  preferredDay : String
  jobLength : String
deriving DecidableEq, Repr

/-- parseSessionAndTeams (page.tsx lines 64-74): lower-case the
job-length text; sessions defaults to 1, set to 2 by substring "full",
then reset to 1 by substring "half"; teams defaults to 1, overridden in
order by the word-boundary phrases "2 teams?", "3 teams?", "4 teams?". -/
def parseSessionAndTeams (jobLength : String) : Nat × Nat :=
  let lower := jobLength.toList.map Char.toLower
  let sessions1 := if isSubstr ("full".toList) lower then 2 else 1
  let sessions := if isSubstr ("half".toList) lower then 1 else sessions1
  let teams1 := if hasTeamPhrase '2' lower then 2 else 1
  let teams2 := if hasTeamPhrase '3' lower then 3 else teams1
  let teams := if hasTeamPhrase '4' lower then 4 else teams2
  (sessions, teams)

/-- The trimmed, lower-cased preference text (the `val` of
abbreviateDateRequested). -/
def trimmedLower (s : String) : List Char :=
  (trimJS s.toList).map Char.toLower

/-- The substituted matching text of abbreviateDateRequested (its
`norm`): `val` with every "morning" replaced by "am" and every
"afternoon" replaced by "pm". -/
def normText (s : String) : List Char :=
  replaceAll ("afternoon".toList) ("pm".toList)
    (replaceAll ("morning".toList) ("am".toList) (trimmedLower s))

/-- abbreviateDateRequested (page.tsx lines 77-125): the prioritized
rule chain normalizing free preference text to a session token. -/
def abbreviateDateRequested (input : String) : String :=
  if (trimJS input.toList).isEmpty then "Any Day"
  else if trimmedLower input = "any".toList ∨ trimmedLower input = "any day".toList then
    "Any Day"
  else if normText input = "monday".toList then "Mon Any"
  else if isSubstr ("monday".toList) (normText input) then
    (if isSubstr ("pm".toList) (normText input) then "Mon PM"
     else if isSubstr ("am".toList) (normText input) then "Mon AM"
     else "Mon Any")
  else if normText input = "tuesday".toList then "Tues Any"
  else if isSubstr ("tuesday".toList) (normText input) then
    (if isSubstr ("pm".toList) (normText input) then "Tues PM"
     else if isSubstr ("am".toList) (normText input) then "Tues AM"
     else "Tues Any")
  else if normText input = "wednesday".toList then "Wed Any"
  else if isSubstr ("wednesday".toList) (normText input) then
    (if isSubstr ("pm".toList) (normText input) then "Wed PM"
     else if isSubstr ("am".toList) (normText input) then "Wed AM"
     else "Wed Any")
  else if normText input = "mon".toList then "Mon Any"
  else if normText input = "tue".toList ∨ normText input = "tues".toList then "Tues Any"
  else if normText input = "wed".toList then "Wed Any"
  else if isSubstr ("mon".toList) (normText input) then
    (if isSubstr ("pm".toList) (normText input) then "Mon PM"
     else if isSubstr ("am".toList) (normText input) then "Mon AM"
     else "Mon Any")
  else if isSubstr ("tue".toList) (normText input) ∨ isSubstr ("tues".toList) (normText input) then
    (if isSubstr ("pm".toList) (normText input) then "Tues PM"
     else if isSubstr ("am".toList) (normText input) then "Tues AM"
     else "Tues Any")
  else if isSubstr ("wed".toList) (normText input) then
    (if isSubstr ("pm".toList) (normText input) then "Wed PM"
     else if isSubstr ("am".toList) (normText input) then "Wed AM"
     else "Wed Any")
  else if isSubstr ("am".toList) (normText input) then
    String.mk ((normText input).map Char.toUpper)
  else if isSubstr ("pm".toList) (normText input) then
    String.mk ((normText input).map Char.toUpper)
  else input

/-- ALL_SESSIONS (page.tsx lines 128-132): the fixed session catalog in
priority order. -/
def ALL_SESSIONS : List String :=
  ["Mon AM", "Mon PM", "Tues AM", "Tues PM", "Wed AM", "Wed PM"]

/-- JS String.prototype.startsWith, via the underlying character lists. -/
def strStartsWith (s p : String) : Bool :=
  p.toList.isPrefixOf s.toList

/-- getAvailableSessions (page.tsx lines 135-144): candidate session
list for a normalized (or fallback) preference string. -/
def getAvailableSessions (requested : String) : List String :=
  if requested = "" ∨ requested = "Any Day" then ALL_SESSIONS
  else if ALL_SESSIONS.contains requested then [requested]
  else if strStartsWith requested "Mon" then ["Mon AM", "Mon PM"]
  else if strStartsWith requested "Tues" then ["Tues AM", "Tues PM"]
  else if strStartsWith requested "Wed" then ["Wed AM", "Wed PM"]
  else ALL_SESSIONS

/-- One emitted (team, client, session) triple. -/
structure Assignment where
  team : String
  client : ClientData
  session : String
deriving DecidableEq, Repr

/-- Run state: the assignments emitted so far and the per-team
held-session record (`teamSessions`), modelled as a total function that
is `[]` outside the roster. -/
def AssignState : Type := List Assignment × (String → List String)

/-- Insertion by ascending `Nat` key, placing the new element before the
first existing element of equal or larger key. -/
def insertByKey {α : Type} (key : α → Nat) (x : α) : List α → List α
  | [] => [x]
  | y :: ys => if key x ≤ key y then x :: y :: ys else y :: insertByKey key x ys

/-- Insertion sort by ascending `Nat` key.  It is stable, so it has the
same observable behaviour as the JS `Array.prototype.sort` call with the
comparator `(a, b) => key(a) - key(b)` (ES2019 requires sort stability,
and a consistent comparator determines the result uniquely). -/
def sortByKey {α : Type} (key : α → Nat) : List α → List α
  | [] => []
  | x :: xs => insertByKey key x (sortByKey key xs)

/-- The `sortedTeams` list of one session-assignment step (page.tsx
lines 176-178): roster teams not already booked for the session and
holding fewer than 6 sessions, sorted ascending by held-session count. -/
def sortedEligibleTeams (teamNames : List String) (ts : String → List String)
    (sess : String) : List String :=
  sortByKey (fun t => (ts t).length)
    (teamNames.filter (fun t => !((ts t).contains sess) && decide ((ts t).length < 6)))

/-- The inner team loop of one step (page.tsx lines 179-184): for each
chosen team in order, push the session onto its record and emit an
Assignment. -/
def pushTeams (client : ClientData) (sess : String) (chosen : List String)
    (st : AssignState) : AssignState :=
  chosen.foldl
    (fun st team =>
      (st.1 ++ [⟨team, client, sess⟩],
       fun t => if t = team then st.2 t ++ [sess] else st.2 t))
    st

/-- One session-assignment step: compute the sorted eligible-team list,
then assign the session to its first `teamsNeeded` teams.  The source's
`if (!team) break` stops the loop both when the list runs out
(`sortedTeams[t]` is `undefined`, modelled by `take`) and when the team
name is the empty string, which is falsy in JS (modelled by
`takeWhile`): an empty-named team and every team after it in that step
are silently skipped. -/
def assignTeamsForSession (teamNames : List String) (client : ClientData)
    (sess : String) (teamsNeeded : Nat) (st : AssignState) : AssignState :=
  pushTeams client sess
    (((sortedEligibleTeams teamNames st.2 sess).take teamsNeeded).takeWhile
      (fun t => !(t == ""))) st

/-- The per-client session loop (page.tsx lines 166-185): repeat up to
`sessionsNeeded` times, each time taking the first candidate session not
yet used for this client and stopping silently when none remains. -/
def assignClientSessions (teamNames : List String) (client : ClientData)
    (possible : List String) (teamsNeeded : Nat) :
    Nat → List String → AssignState → AssignState
  | 0, _, st => st
  | k + 1, used, st =>
    match possible.filter (fun sess => !(used.contains sess)) with
    | [] => st
    | sessionToAssign :: _ =>
      assignClientSessions teamNames client possible teamsNeeded k
        (used ++ [sessionToAssign])
        (assignTeamsForSession teamNames client sessionToAssign teamsNeeded st)

/-- Processing of one client (page.tsx lines 158-186). -/
def processClient (teamNames : List String) (st : AssignState)
    (client : ClientData) : AssignState :=
  let p := parseSessionAndTeams client.jobLength
  let requested := abbreviateDateRequested client.preferredDay
  let possible := getAvailableSessions requested
  assignClientSessions teamNames client possible p.2 p.1 [] st

/-- The result record of `assignSessionsToTeams`. -/
structure AssignResult where
  assignments : List Assignment
  teamSessions : String → List String

/-- assignSessionsToTeams (page.tsx lines 147-188): fresh empty per-team
session record, then one pass over the clients in order. -/
def assignSessionsToTeams (clients : List ClientData) (teamNames : List String) :
    AssignResult :=
  let final := clients.foldl (processClient teamNames) ([], fun _ => [])
  ⟨final.1, final.2⟩

/-- The concrete client of the end-to-end property. -/
def fullTwoTeamsClient : ClientData :=
  ⟨"client", "", "", "Monday", "Full 2 Teams"⟩

/-- The two run outputs agree: the per-team session record equals the
session column of the assignments referencing that team. -/
def consistent (st : AssignState) : Prop :=
  ∀ t, st.2 t = (st.1.filter (fun a => a.team == t)).map (fun a => a.session)

/-- Per-team record properties: no duplicate sessions and at most 6. -/
def boundedNodup (st : AssignState) : Prop :=
  ∀ t, (st.2 t).Nodup ∧ (st.2 t).length ≤ 6

/-- Pre-seeded run state for exercising the eligibility step: team A
already holds one session, B and C hold none. -/
def seededState : AssignState :=
  ([], fun t => if t = "A" then ["Wed AM"] else [])

/-- The quantity named by the claim: the uppercased trimmed input text. -/
def upperTrimmedText (s : String) : String :=
  String.mk ((trimJS s.toList).map Char.toUpper)

theorem pushTeams_cons (c : ClientData) (s team : String) (rest : List String)
    (st : AssignState) :
    pushTeams c s (team :: rest) st =
      pushTeams c s rest
        (st.1 ++ [⟨team, c, s⟩], fun t => if t = team then st.2 t ++ [s] else st.2 t) :=
  rfl

theorem pushTeams_fst (c : ClientData) (s : String) (chosen : List String)
    (st : AssignState) :
    (pushTeams c s chosen st).1 = st.1 ++ chosen.map (fun team => ⟨team, c, s⟩) := by
  induction chosen generalizing st with
  | nil => simp [pushTeams]
  | cons team rest ih =>
    rw [pushTeams_cons, ih]
    simp

theorem pushTeams_snd (c : ClientData) (s : String) (chosen : List String)
    (st : AssignState) (t : String) :
    (pushTeams c s chosen st).2 t = st.2 t ++ List.replicate (chosen.count t) s := by
  induction chosen generalizing st with
  | nil => simp [pushTeams]
  | cons team rest ih =>
    rw [pushTeams_cons, ih]
    by_cases h : t = team
    · subst h
      simp [List.count_cons, List.replicate_succ]
    · have : ¬(t == team) = true := by simpa using h
      simp [List.count_cons, h, this]

theorem perm_insertByKey {α : Type} (key : α → Nat) (x : α) (l : List α) :
    (insertByKey key x l).Perm (x :: l) := by
  induction l with
  | nil => simp [insertByKey]
  | cons y ys ih =>
    by_cases h : key x ≤ key y
    · simp [insertByKey, h]
    · simp only [insertByKey, h, if_false]
      exact (ih.cons y).trans (List.Perm.swap x y ys)

theorem perm_sortByKey {α : Type} (key : α → Nat) (l : List α) :
    (sortByKey key l).Perm l := by
  induction l with
  | nil => simp [sortByKey]
  | cons x xs ih =>
    exact (perm_insertByKey key x (sortByKey key xs)).trans (ih.cons x)

theorem pairwise_insertByKey {α : Type} (key : α → Nat) (R : α → α → Prop)
    (x : α) (l : List α) (hx : ∀ b ∈ l, R x b)
    (hl : l.Pairwise (fun a b => key a < key b ∨ (key a = key b ∧ R a b))) :
    (insertByKey key x l).Pairwise
      (fun a b => key a < key b ∨ (key a = key b ∧ R a b)) := by
  induction l with
  | nil => simp [insertByKey]
  | cons y ys ih =>
    rcases List.pairwise_cons.mp hl with ⟨hy, hys⟩
    by_cases h : key x ≤ key y
    · simp only [insertByKey, h, if_true]
      refine List.pairwise_cons.mpr ⟨?_, hl⟩
      intro b hb
      have hKb : key x ≤ key b := by
        rcases List.mem_cons.mp hb with hb | hb
        · subst hb; exact h
        · rcases hy b hb with h1 | h1
          · exact le_trans h (le_of_lt h1)
          · exact le_trans h (le_of_eq h1.1)
      rcases lt_or_eq_of_le hKb with h2 | h2
      · exact Or.inl h2
      · exact Or.inr ⟨h2, hx b hb⟩
    · simp only [insertByKey, h, if_false]
      refine List.pairwise_cons.mpr ⟨?_, ?_⟩
      · intro b hb
        have hb2 : b ∈ x :: ys := (perm_insertByKey key x ys).mem_iff.mp hb
        rcases List.mem_cons.mp hb2 with hb2 | hb2
        · subst hb2
          exact Or.inl (Nat.lt_of_not_le h)
        · exact hy b hb2
      · exact ih (fun b hb => hx b (List.mem_cons_of_mem y hb)) hys

theorem pairwise_sortByKey {α : Type} (key : α → Nat) (R : α → α → Prop)
    (l : List α) (hl : l.Pairwise R) :
    (sortByKey key l).Pairwise
      (fun a b => key a < key b ∨ (key a = key b ∧ R a b)) := by
  induction l with
  | nil => simp [sortByKey]
  | cons x xs ih =>
    rcases List.pairwise_cons.mp hl with ⟨hx, hxs⟩
    exact pairwise_insertByKey key R x (sortByKey key xs)
      (fun b hb => hx b ((perm_sortByKey key xs).mem_iff.mp hb)) (ih hxs)

theorem pairwise_indexOf_lt (l : List String) (h : l.Nodup) :
    l.Pairwise (fun a b => l.indexOf a < l.indexOf b) := by
  induction l with
  | nil => simp
  | cons x xs ih =>
    rcases List.nodup_cons.mp h with ⟨hx, hxs⟩
    refine List.pairwise_cons.mpr ⟨?_, ?_⟩
    · intro b hb
      have hne : x ≠ b := fun he => hx (he ▸ hb)
      rw [List.indexOf_cons_self, List.indexOf_cons_ne _ hne]
      exact Nat.succ_pos _
    · refine (ih hxs).imp_of_mem ?_
      intro a b ha hb hab
      have hna : x ≠ a := fun he => hx (he ▸ ha)
      have hnb : x ≠ b := fun he => hx (he ▸ hb)
      rw [List.indexOf_cons_ne _ hna, List.indexOf_cons_ne _ hnb]
      exact Nat.succ_lt_succ hab

theorem mem_sortedEligibleTeams (teamNames : List String)
    (ts : String → List String) (sess t : String) :
    t ∈ sortedEligibleTeams teamNames ts sess ↔
      t ∈ teamNames ∧ sess ∉ ts t ∧ (ts t).length < 6 := by
  unfold sortedEligibleTeams
  rw [(perm_sortByKey _ _).mem_iff, List.mem_filter]
  simp [List.elem_iff, and_assoc]

theorem nodup_sortedEligibleTeams (teamNames : List String)
    (ts : String → List String) (sess : String) (h : teamNames.Nodup) :
    (sortedEligibleTeams teamNames ts sess).Nodup :=
  (perm_sortByKey _ _).symm.nodup (h.filter _)

theorem filter_map_mk (c : ClientData) (s t : String) (chosen : List String) :
    ((chosen.map (fun team => (⟨team, c, s⟩ : Assignment))).filter
        (fun a => a.team == t)).map (fun a => a.session) =
      List.replicate (chosen.count t) s := by
  induction chosen with
  | nil => simp
  | cons team rest ih =>
    by_cases h : team = t
    · subst h
      simp [List.count_cons, List.replicate_succ, ih]
    · have hb : ¬(team == t) = true := by simpa using h
      have hb2 : ¬(t == team) = true := by simpa using Ne.symm h
      simp [List.count_cons, hb, hb2, ih]

theorem consistent_assignTeamsForSession (teamNames : List String)
    (client : ClientData) (sess : String) (n : Nat) (st : AssignState)
    (h : consistent st) :
    consistent (assignTeamsForSession teamNames client sess n st) := by
  intro t
  unfold assignTeamsForSession
  rw [pushTeams_snd, pushTeams_fst, List.filter_append, List.map_append,
    filter_map_mk, h t]

theorem mem_take_eligible (teamNames : List String) (ts : String → List String)
    (sess t : String) (n : Nat)
    (ht : t ∈ ((sortedEligibleTeams teamNames ts sess).take n).takeWhile
      (fun t => !(t == ""))) :
    t ∈ teamNames ∧ sess ∉ ts t ∧ (ts t).length < 6 :=
  (mem_sortedEligibleTeams teamNames ts sess t).mp
    ((List.take_sublist n _).mem ((List.takeWhile_sublist _).mem ht))

theorem boundedNodup_assignTeamsForSession (teamNames : List String)
    (client : ClientData) (sess : String) (n : Nat) (st : AssignState)
    (hnd : teamNames.Nodup) (h : boundedNodup st) :
    boundedNodup (assignTeamsForSession teamNames client sess n st) := by
  intro t
  unfold assignTeamsForSession
  rw [pushTeams_snd]
  by_cases hmem : t ∈ ((sortedEligibleTeams teamNames st.2 sess).take n).takeWhile
    (fun t => !(t == ""))
  · have hchosen : (((sortedEligibleTeams teamNames st.2 sess).take n).takeWhile
        (fun t => !(t == ""))).Nodup :=
      (List.takeWhile_sublist _).nodup ((List.take_sublist n _).nodup
        (nodup_sortedEligibleTeams teamNames st.2 sess hnd))
    rw [List.count_eq_one_of_mem hchosen hmem]
    rcases mem_take_eligible teamNames st.2 sess t n hmem with ⟨-, hnotin, hlt⟩
    constructor
    · simp [List.nodup_append, (h t).1, hnotin]
    · simp only [List.length_append, List.length_replicate]
      omega
  · rw [List.count_eq_zero.mpr hmem]
    simpa using h t

theorem consistent_assignClientSessions (teamNames : List String)
    (client : ClientData) (possible : List String) (teamsNeeded : Nat)
    (k : Nat) (used : List String) (st : AssignState) (h : consistent st) :
    consistent (assignClientSessions teamNames client possible teamsNeeded k used st) := by
  induction k generalizing used st with
  | zero => exact h
  | succ k ih =>
    unfold assignClientSessions
    cases hf : possible.filter (fun sess => !(used.contains sess)) with
    | nil => exact h
    | cons sess rest =>
      exact ih _ _ (consistent_assignTeamsForSession teamNames client sess teamsNeeded st h)

theorem boundedNodup_assignClientSessions (teamNames : List String)
    (client : ClientData) (possible : List String) (teamsNeeded : Nat)
    (k : Nat) (used : List String) (st : AssignState)
    (hnd : teamNames.Nodup) (h : boundedNodup st) :
    boundedNodup (assignClientSessions teamNames client possible teamsNeeded k used st) := by
  induction k generalizing used st with
  | zero => exact h
  | succ k ih =>
    unfold assignClientSessions
    cases hf : possible.filter (fun sess => !(used.contains sess)) with
    | nil => exact h
    | cons sess rest =>
      exact ih _ _
        (boundedNodup_assignTeamsForSession teamNames client sess teamsNeeded st hnd h)

theorem consistent_processClient (teamNames : List String) (st : AssignState)
    (client : ClientData) (h : consistent st) :
    consistent (processClient teamNames st client) :=
  consistent_assignClientSessions _ _ _ _ _ _ _ h

theorem boundedNodup_processClient (teamNames : List String) (st : AssignState)
    (client : ClientData) (hnd : teamNames.Nodup) (h : boundedNodup st) :
    boundedNodup (processClient teamNames st client) :=
  boundedNodup_assignClientSessions _ _ _ _ _ _ _ hnd h

theorem consistent_run (teamNames : List String) (clients : List ClientData)
    (st : AssignState) (h : consistent st) :
    consistent (clients.foldl (processClient teamNames) st) := by
  induction clients generalizing st with
  | nil => exact h
  | cons c cs ih =>
    exact ih _ (consistent_processClient teamNames st c h)

theorem boundedNodup_run (teamNames : List String) (clients : List ClientData)
    (st : AssignState) (hnd : teamNames.Nodup) (h : boundedNodup st) :
    boundedNodup (clients.foldl (processClient teamNames) st) := by
  induction clients generalizing st with
  | nil => exact h
  | cons c cs ih =>
    exact ih _ (boundedNodup_processClient teamNames st c hnd h)

theorem consistent_assignSessionsToTeams (clients : List ClientData)
    (teamNames : List String) (t : String) :
    (assignSessionsToTeams clients teamNames).teamSessions t =
      ((assignSessionsToTeams clients teamNames).assignments.filter
          (fun a => a.team == t)).map (fun a => a.session) := by
  have h0 : consistent (([], fun _ => []) : AssignState) := by
    intro t; simp
  exact consistent_run teamNames clients _ h0 t

theorem boundedNodup_assignSessionsToTeams (clients : List ClientData)
    (teamNames : List String) (hnd : teamNames.Nodup) (t : String) :
    ((assignSessionsToTeams clients teamNames).teamSessions t).Nodup ∧
      ((assignSessionsToTeams clients teamNames).teamSessions t).length ≤ 6 := by
  have h0 : boundedNodup (([], fun _ => []) : AssignState) := by
    intro t; simp
  exact boundedNodup_run teamNames clients _ hnd h0 t

theorem countP_pair (asg : List Assignment) (t s : String) :
    asg.countP (fun a => a.team == t && a.session == s) =
      List.count s ((asg.filter (fun a => a.team == t)).map (fun a => a.session)) := by
  induction asg with
  | nil => simp
  | cons a rest ih =>
    by_cases h1 : a.team = t
    · by_cases h2 : a.session = s
      · simp [List.countP_cons, List.count_cons, h1, h2, ih]
      · simp [List.countP_cons, List.count_cons, h1, h2, ih]
    · simp [List.countP_cons, h1, ih]

/-- C1: for every client sequence and duplicate-free roster, each
(team, session) pair occurs in at most one emitted Assignment. -/
theorem team_session_pair_unique (clients : List ClientData)
    (teamNames : List String) (hnd : teamNames.Nodup) (t s : String) :
    (assignSessionsToTeams clients teamNames).assignments.countP
        (fun a => a.team == t && a.session == s) ≤ 1 := by
  rw [countP_pair, ← consistent_assignSessionsToTeams clients teamNames t]
  exact List.nodup_iff_count_le_one.mp
    (boundedNodup_assignSessionsToTeams clients teamNames hnd t).1 s

theorem team_session_pair_unique_witness :
    (["A", "B"] : List String).Nodup ∧
      (assignSessionsToTeams [fullTwoTeamsClient] ["A", "B"]).assignments.countP
          (fun a => a.team == "A" && a.session == "Mon AM") ≤ 1 :=
  ⟨by decide,
   team_session_pair_unique [fullTwoTeamsClient] ["A", "B"] (by decide) "A" "Mon AM"⟩

/-- C4: for every run over a duplicate-free roster, each team is
referenced by at most 6 emitted Assignments. -/
theorem team_at_most_six (clients : List ClientData) (teamNames : List String)
    (hnd : teamNames.Nodup) (t : String) :
    (assignSessionsToTeams clients teamNames).assignments.countP
        (fun a => a.team == t) ≤ 6 := by
  rw [List.countP_eq_length_filter]
  have hlen := (boundedNodup_assignSessionsToTeams clients teamNames hnd t).2
  rw [consistent_assignSessionsToTeams clients teamNames t, List.length_map] at hlen
  exact hlen

theorem team_at_most_six_witness :
    (["A", "B"] : List String).Nodup ∧
      (assignSessionsToTeams [fullTwoTeamsClient] ["A", "B"]).assignments.countP
          (fun a => a.team == "A") ≤ 6 :=
  ⟨by decide, team_at_most_six [fullTwoTeamsClient] ["A", "B"] (by decide) "A"⟩

/-- C10: the two outputs of assignSessionsToTeams are consistent: each
team's teamSessions list is exactly the session column, in order, of the
Assignments referencing that team, so its reported load equals its
number of Assignments. -/
theorem outputs_consistent (clients : List ClientData) (teamNames : List String)
    (t : String) :
    (assignSessionsToTeams clients teamNames).teamSessions t =
      ((assignSessionsToTeams clients teamNames).assignments.filter
          (fun a => a.team == t)).map (fun a => a.session) ∧
      ((assignSessionsToTeams clients teamNames).teamSessions t).length =
        (assignSessionsToTeams clients teamNames).assignments.countP
          (fun a => a.team == t) := by
  refine ⟨consistent_assignSessionsToTeams clients teamNames t, ?_⟩
  rw [consistent_assignSessionsToTeams clients teamNames t, List.length_map,
    List.countP_eq_length_filter]

/-- C3: the end-to-end run with roster [A, B] and the single client with
jobLength "Full 2 Teams" and preferredDay "Monday" emits exactly
(A, Mon AM), (B, Mon AM), (A, Mon PM), (B, Mon PM) in that order, and
both teams end the run holding exactly 2 sessions. -/
theorem end_to_end_full_two_teams :
    (assignSessionsToTeams [fullTwoTeamsClient] ["A", "B"]).assignments =
      [⟨"A", fullTwoTeamsClient, "Mon AM"⟩, ⟨"B", fullTwoTeamsClient, "Mon AM"⟩,
       ⟨"A", fullTwoTeamsClient, "Mon PM"⟩, ⟨"B", fullTwoTeamsClient, "Mon PM"⟩] ∧
      ((assignSessionsToTeams [fullTwoTeamsClient] ["A", "B"]).teamSessions "A").length = 2 ∧
      ((assignSessionsToTeams [fullTwoTeamsClient] ["A", "B"]).teamSessions "B").length = 2 := by
  decide

/-- C2 counterexample: at the duplicate-free roster ["", "B"] with all
loads empty, the eligible-team list for "Mon AM" is exactly ["", "B"],
yet the step assigns the session to no team at all: the source's
`if (!team) break` fires on the empty-string team name (falsy in JS)
and aborts the whole team loop, so the first teamsNeeded teams do not
each receive one Assignment as the claim states. -/
theorem eligible_step_counterexample :
    (["", "B"] : List String).Nodup ∧
      sortedEligibleTeams ["", "B"] (fun _ => []) "Mon AM" = ["", "B"] ∧
      (assignTeamsForSession ["", "B"] fullTwoTeamsClient "Mon AM" 2
          (([], fun _ => []) : AssignState)).1 = [] ∧
      (assignTeamsForSession ["", "B"] fullTwoTeamsClient "Mon AM" 2
          (([], fun _ => []) : AssignState)).1 ≠
        ((sortedEligibleTeams ["", "B"] (fun _ => []) "Mon AM").take 2).map
          (fun team => (⟨team, fullTwoTeamsClient, "Mon AM"⟩ : Assignment)) := by
  decide

/-- C2 amended: in every session-assignment step, the eligible-team list
holds exactly the roster teams not already holding the session and with
fewer than 6 held sessions, ordered ascending by held-session count with
ties broken by original roster position; the step appends one Assignment
for each team of the longest all-non-empty-named prefix of the first
teamsNeeded teams of that list (the code's falsy `if (!team) break`
stops the loop at an empty-string team name as well as at the end of the
list); the step is total, so a shortfall produces no error. -/
theorem eligible_step_amended (teamNames : List String) (st : AssignState)
    (sess : String) (teamsNeeded : Nat) (client : ClientData)
    (hnd : teamNames.Nodup) :
    (∀ t, t ∈ sortedEligibleTeams teamNames st.2 sess ↔
        t ∈ teamNames ∧ sess ∉ st.2 t ∧ (st.2 t).length < 6) ∧
      (sortedEligibleTeams teamNames st.2 sess).Pairwise
        (fun a b => (st.2 a).length < (st.2 b).length ∨
          ((st.2 a).length = (st.2 b).length ∧
            teamNames.indexOf a < teamNames.indexOf b)) ∧
      (assignTeamsForSession teamNames client sess teamsNeeded st).1 =
        st.1 ++ (((sortedEligibleTeams teamNames st.2 sess).take teamsNeeded).takeWhile
            (fun t => !(t == ""))).map
          (fun team => (⟨team, client, sess⟩ : Assignment)) := by
  refine ⟨fun t => mem_sortedEligibleTeams teamNames st.2 sess t, ?_, ?_⟩
  · unfold sortedEligibleTeams
    exact pairwise_sortByKey _ _ _ ((pairwise_indexOf_lt teamNames hnd).filter _)
  · unfold assignTeamsForSession
    exact pushTeams_fst client sess _ st

theorem eligible_step_amended_witness :
    (["A", "B", "C"] : List String).Nodup ∧
      ((∀ t, t ∈ sortedEligibleTeams ["A", "B", "C"] seededState.2 "Tues AM" ↔
          t ∈ ["A", "B", "C"] ∧ "Tues AM" ∉ seededState.2 t ∧
            (seededState.2 t).length < 6) ∧
        (sortedEligibleTeams ["A", "B", "C"] seededState.2 "Tues AM").Pairwise
          (fun a b => (seededState.2 a).length < (seededState.2 b).length ∨
            ((seededState.2 a).length = (seededState.2 b).length ∧
              (["A", "B", "C"] : List String).indexOf a <
                (["A", "B", "C"] : List String).indexOf b)) ∧
        (assignTeamsForSession ["A", "B", "C"] fullTwoTeamsClient "Tues AM" 2
            seededState).1 =
          seededState.1 ++
            (((sortedEligibleTeams ["A", "B", "C"] seededState.2 "Tues AM").take 2).takeWhile
                (fun t => !(t == ""))).map
              (fun team => (⟨team, fullTwoTeamsClient, "Tues AM"⟩ : Assignment))) :=
  ⟨by decide,
   eligible_step_amended ["A", "B", "C"] seededState "Tues AM" 2 fullTwoTeamsClient
     (by decide)⟩

/-- C5: "full" without "half" gives sessionsNeeded 2; "half" overrides a
present "full" down to 1; neither keyword defaults to 1. -/
theorem half_overrides_full (s : String) :
    (isSubstr ("full".toList) (s.toList.map Char.toLower) = true →
        isSubstr ("half".toList) (s.toList.map Char.toLower) = false →
        (parseSessionAndTeams s).1 = 2) ∧
      (isSubstr ("full".toList) (s.toList.map Char.toLower) = true →
          isSubstr ("half".toList) (s.toList.map Char.toLower) = true →
          (parseSessionAndTeams s).1 = 1) ∧
      (isSubstr ("full".toList) (s.toList.map Char.toLower) = false →
          isSubstr ("half".toList) (s.toList.map Char.toLower) = false →
          (parseSessionAndTeams s).1 = 1) := by
  refine ⟨fun h1 h2 => ?_, fun h1 h2 => ?_, fun h1 h2 => ?_⟩ <;>
    simp_all [parseSessionAndTeams]

theorem half_overrides_full_witness : (parseSessionAndTeams "full day").1 = 2 :=
  (half_overrides_full "full day").1 (by decide) (by decide)

/-- C6: the normalizer maps "Monday" to "Mon Any", "monday afternoon" to
"Mon PM", the empty string to "Any Day", and "tues am" to "Tues AM". -/
theorem normalizer_examples :
    abbreviateDateRequested "Monday" = "Mon Any" ∧
      abbreviateDateRequested "monday afternoon" = "Mon PM" ∧
      abbreviateDateRequested "" = "Any Day" ∧
      abbreviateDateRequested "tues am" = "Tues AM" := by
  decide

/-- C9 counterexample: "3 teams 4 teams" has a word-boundary "3 teams"
phrase, yet teamsNeeded is 4, not 3 — the later "4 teams" check
overrides the "3 teams" one. -/
theorem three_teams_overridden_by_four :
    hasTeamPhrase '3' ("3 teams 4 teams".toList.map Char.toLower) = true ∧
      (parseSessionAndTeams "3 teams 4 teams").2 = 4 ∧
      (parseSessionAndTeams "3 teams 4 teams").2 ≠ 3 := by
  decide

/-- C9 amended: parseSessionAndTeams is total with sessionsNeeded in
{1,2} and teamsNeeded in {1,2,3,4}; a word-boundary "3 teams" phrase
yields teamsNeeded 3 provided no word-boundary "4 teams" phrase is also
present (the 4-teams check runs later and overrides); and text matching
no keyword yields the defaults (1,1). -/
theorem parser_total_amended (s : String) :
    ((parseSessionAndTeams s).1 = 1 ∨ (parseSessionAndTeams s).1 = 2) ∧
      ((parseSessionAndTeams s).2 = 1 ∨ (parseSessionAndTeams s).2 = 2 ∨
        (parseSessionAndTeams s).2 = 3 ∨ (parseSessionAndTeams s).2 = 4) ∧
      (hasTeamPhrase '3' (s.toList.map Char.toLower) = true →
        hasTeamPhrase '4' (s.toList.map Char.toLower) = false →
        (parseSessionAndTeams s).2 = 3) ∧
      (isSubstr ("full".toList) (s.toList.map Char.toLower) = false →
        isSubstr ("half".toList) (s.toList.map Char.toLower) = false →
        hasTeamPhrase '2' (s.toList.map Char.toLower) = false →
        hasTeamPhrase '3' (s.toList.map Char.toLower) = false →
        hasTeamPhrase '4' (s.toList.map Char.toLower) = false →
        parseSessionAndTeams s = (1, 1)) := by
  refine ⟨?_, ?_, fun h3 h4 => ?_, fun hf hh h2 h3 h4 => ?_⟩
  · by_cases hf : isSubstr ("full".toList) (s.toList.map Char.toLower) = true <;>
      by_cases hh : isSubstr ("half".toList) (s.toList.map Char.toLower) = true <;>
      simp_all [parseSessionAndTeams]
  · by_cases h2 : hasTeamPhrase '2' (s.toList.map Char.toLower) = true <;>
      by_cases h3 : hasTeamPhrase '3' (s.toList.map Char.toLower) = true <;>
      by_cases h4 : hasTeamPhrase '4' (s.toList.map Char.toLower) = true <;>
      simp_all [parseSessionAndTeams]
  · simp_all [parseSessionAndTeams]
  · simp_all [parseSessionAndTeams]

theorem parser_total_amended_witness : (parseSessionAndTeams "3 teams").2 = 3 :=
  (parser_total_amended "3 teams").2.2.1 (by decide) (by decide)

/-- C7 counterexample: "Mon" is none of the claim's recognized shapes
(blank, "Any Day", an exact session token, or "&lt;Day&gt; Any"), yet the
resolver returns the Monday pair instead of the full catalog, because
the code matches on the "Mon" string head. -/
theorem resolver_fallback_counterexample :
    "Mon" ≠ "" ∧ "Mon" ≠ "Any Day" ∧ "Mon" ∉ ALL_SESSIONS ∧
      "Mon" ∉ (["Mon Any", "Tues Any", "Wed Any"] : List String) ∧
      getAvailableSessions "Mon" ≠ ALL_SESSIONS ∧
      getAvailableSessions "Mon" = ["Mon AM", "Mon PM"] := by
  decide

theorem cons_isPrefixOf_clash {c₁ c₂ : Char} (hne : c₁ ≠ c₂)
    (t₁ t₂ l : List Char) (h : (c₁ :: t₁).isPrefixOf l = true) :
    (c₂ :: t₂).isPrefixOf l = false := by
  cases l with
  | nil => simp [List.isPrefixOf] at h
  | cons d ds =>
    simp only [List.isPrefixOf, Bool.and_eq_true, beq_iff_eq] at h
    simp only [List.isPrefixOf, Bool.and_eq_false_iff]
    left
    rw [beq_eq_false_iff_ne]
    exact fun he => hne (h.1.trans he.symm)

/-- C7 amended: blank or "Any Day" resolves to the full catalog; an
exact session token resolves to its singleton; any non-token string
starting with "Mon", "Tues" or "Wed" (in particular "&lt;Day&gt; Any")
resolves to that day's two sessions in catalog order; every remaining
string resolves to the full catalog, and the resolver is total, so it
never errors. -/
theorem resolver_cases_amended (p : String) :
    ((p = "" ∨ p = "Any Day") → getAvailableSessions p = ALL_SESSIONS) ∧
      (p ∈ ALL_SESSIONS → getAvailableSessions p = [p]) ∧
      (p ∉ ALL_SESSIONS → strStartsWith p "Mon" = true →
        getAvailableSessions p = ["Mon AM", "Mon PM"]) ∧
      (p ∉ ALL_SESSIONS → strStartsWith p "Tues" = true →
        getAvailableSessions p = ["Tues AM", "Tues PM"]) ∧
      (p ∉ ALL_SESSIONS → strStartsWith p "Wed" = true →
        getAvailableSessions p = ["Wed AM", "Wed PM"]) ∧
      (p ≠ "" → p ≠ "Any Day" → p ∉ ALL_SESSIONS →
        strStartsWith p "Mon" = false → strStartsWith p "Tues" = false →
        strStartsWith p "Wed" = false → getAvailableSessions p = ALL_SESSIONS) := by
  refine ⟨?_, ?_, ?_, ?_, ?_, ?_⟩
  · rintro (rfl | rfl) <;> decide
  · intro hp
    simp only [ALL_SESSIONS, List.mem_cons, List.not_mem_nil, or_false] at hp
    rcases hp with rfl | rfl | rfl | rfl | rfl | rfl <;> decide
  · intro hnp hm
    have hblank : ¬(p = "" ∨ p = "Any Day") := by
      rintro (rfl | rfl) <;> exact absurd hm (by decide)
    have hcont : ¬(ALL_SESSIONS.contains p = true) := fun hc => hnp (List.elem_iff.mp hc)
    simp [getAvailableSessions, hblank, hcont, hnp, hm]
  · intro hnp hm
    have hblank : ¬(p = "" ∨ p = "Any Day") := by
      rintro (rfl | rfl) <;> exact absurd hm (by decide)
    have hcont : ¬(ALL_SESSIONS.contains p = true) := fun hc => hnp (List.elem_iff.mp hc)
    have hmon : strStartsWith p "Mon" = false :=
      cons_isPrefixOf_clash (by decide) _ _ p.toList hm
    simp [getAvailableSessions, hblank, hcont, hnp, hmon, hm]
  · intro hnp hm
    have hblank : ¬(p = "" ∨ p = "Any Day") := by
      rintro (rfl | rfl) <;> exact absurd hm (by decide)
    have hcont : ¬(ALL_SESSIONS.contains p = true) := fun hc => hnp (List.elem_iff.mp hc)
    have hmon : strStartsWith p "Mon" = false :=
      cons_isPrefixOf_clash (by decide) _ _ p.toList hm
    have htue : strStartsWith p "Tues" = false :=
      cons_isPrefixOf_clash (by decide) _ _ p.toList hm
    simp [getAvailableSessions, hblank, hcont, hnp, hmon, htue, hm]
  · intro h1 h2 hnp hmon htue hwed
    have hblank : ¬(p = "" ∨ p = "Any Day") := by rintro (rfl | rfl) <;> simp_all
    have hcont : ¬(ALL_SESSIONS.contains p = true) := fun hc => hnp (List.elem_iff.mp hc)
    simp [getAvailableSessions, hblank, hcont, hnp, hmon, htue, hwed]

theorem resolver_cases_amended_witness :
    getAvailableSessions "Mon Any" = ["Mon AM", "Mon PM"] :=
  (resolver_cases_amended "Mon Any").2.2.1 (by decide) (by decide)

theorem isPrefixOf_trans (l₁ l₂ l₃ : List Char) (h₁ : l₁.isPrefixOf l₂ = true)
    (h₂ : l₂.isPrefixOf l₃ = true) : l₁.isPrefixOf l₃ = true := by
  induction l₁ generalizing l₂ l₃ with
  | nil => simp [List.isPrefixOf]
  | cons a as ih =>
    cases l₂ with
    | nil => simp [List.isPrefixOf] at h₁
    | cons b bs =>
      cases l₃ with
      | nil => simp [List.isPrefixOf] at h₂
      | cons c cs =>
        simp only [List.isPrefixOf, Bool.and_eq_true, beq_iff_eq] at h₁ h₂ ⊢
        exact ⟨h₁.1.trans h₂.1, ih bs cs h₁.2 h₂.2⟩

theorem isSubstr_mono (n₁ n₂ hay : List Char) (hp : n₁.isPrefixOf n₂ = true)
    (h : isSubstr n₂ hay = true) : isSubstr n₁ hay = true := by
  induction hay with
  | nil =>
    simp only [isSubstr, List.isEmpty_iff] at h ⊢
    subst h
    cases n₁ with
    | nil => rfl
    | cons a as => simp [List.isPrefixOf] at hp
  | cons c rest ih =>
    simp only [isSubstr, Bool.or_eq_true] at h ⊢
    rcases h with h | h
    · exact Or.inl (isPrefixOf_trans n₁ n₂ (c :: rest) hp h)
    · exact Or.inr (ih h)

/-- C8 counterexample: for the input "morning" the substituted form is
"am", which contains "am" and matches no day name or abbreviation, yet
the normalizer returns "AM" — the uppercased substituted text — and not
the uppercased trimmed input text "MORNING". -/
theorem ampm_fallback_counterexample :
    (isSubstr ("am".toList) (normText "morning") = true ∨
        isSubstr ("pm".toList) (normText "morning") = true) ∧
      isSubstr ("monday".toList) (normText "morning") = false ∧
      isSubstr ("tuesday".toList) (normText "morning") = false ∧
      isSubstr ("wednesday".toList) (normText "morning") = false ∧
      isSubstr ("mon".toList) (normText "morning") = false ∧
      isSubstr ("tue".toList) (normText "morning") = false ∧
      isSubstr ("wed".toList) (normText "morning") = false ∧
      upperTrimmedText "morning" = "MORNING" ∧
      abbreviateDateRequested "morning" = "AM" ∧
      abbreviateDateRequested "morning" ≠ upperTrimmedText "morning" := by
  decide

/-- C8 amended: when the lower-cased, trimmed, substituted form of the
input contains "am" or "pm" but no day name or day abbreviation, the
normalizer returns the uppercased substituted form (not the uppercased
trimmed raw input, which differs whenever a substitution fired). -/
theorem ampm_fallback_amended (s : String)
    (ham : isSubstr ("am".toList) (normText s) = true ∨
      isSubstr ("pm".toList) (normText s) = true)
    (hmon : isSubstr ("mon".toList) (normText s) = false)
    (htue : isSubstr ("tue".toList) (normText s) = false)
    (hwed : isSubstr ("wed".toList) (normText s) = false) :
    abbreviateDateRequested s = String.mk ((normText s).map Char.toUpper) := by
  have hne : (trimJS s.toList).isEmpty = false := by
    cases hE : (trimJS s.toList).isEmpty
    · rfl
    · exfalso
      have h0 : trimJS s.toList = [] := by simpa using hE
      have hn : normText s = [] := by
        unfold normText trimmedLower
        rw [h0]
        rfl
      rw [hn] at ham
      rcases ham with h | h <;> exact absurd h (by decide)
  have hany : ¬(trimmedLower s = "any".toList ∨ trimmedLower s = "any day".toList) := by
    rintro (h | h)
    · have hn : normText s = "any".toList := by
        unfold normText
        rw [h]
        decide
      rw [hn] at ham
      rcases ham with h2 | h2 <;> exact absurd h2 (by decide)
    · have hn : normText s = "any day".toList := by
        unfold normText
        rw [h]
        decide
      rw [hn] at ham
      rcases ham with h2 | h2 <;> exact absurd h2 (by decide)
  have hmonday : isSubstr ("monday".toList) (normText s) = false := by
    cases hx : isSubstr ("monday".toList) (normText s)
    · rfl
    · exact absurd (isSubstr_mono ("mon".toList) ("monday".toList) (normText s)
          (by decide) hx) (by rw [hmon]; exact Bool.false_ne_true)
  have htuesday : isSubstr ("tuesday".toList) (normText s) = false := by
    cases hx : isSubstr ("tuesday".toList) (normText s)
    · rfl
    · exact absurd (isSubstr_mono ("tue".toList) ("tuesday".toList) (normText s)
          (by decide) hx) (by rw [htue]; exact Bool.false_ne_true)
  have hwednesday : isSubstr ("wednesday".toList) (normText s) = false := by
    cases hx : isSubstr ("wednesday".toList) (normText s)
    · rfl
    · exact absurd (isSubstr_mono ("wed".toList) ("wednesday".toList) (normText s)
          (by decide) hx) (by rw [hwed]; exact Bool.false_ne_true)
  have htues : isSubstr ("tues".toList) (normText s) = false := by
    cases hx : isSubstr ("tues".toList) (normText s)
    · rfl
    · exact absurd (isSubstr_mono ("tue".toList) ("tues".toList) (normText s)
          (by decide) hx) (by rw [htue]; exact Bool.false_ne_true)
  have e1 : ¬(normText s = "monday".toList) := fun h => absurd (h ▸ hmon) (by decide)
  have e2 : ¬(normText s = "tuesday".toList) := fun h => absurd (h ▸ htue) (by decide)
  have e3 : ¬(normText s = "wednesday".toList) := fun h => absurd (h ▸ hwed) (by decide)
  have e4 : ¬(normText s = "mon".toList) := fun h => absurd (h ▸ hmon) (by decide)
  have e5 : ¬(normText s = "tue".toList ∨ normText s = "tues".toList) := by
    rintro (h | h)
    · exact absurd (h ▸ htue) (by decide)
    · exact absurd (h ▸ htue) (by decide)
  have e6 : ¬(normText s = "wed".toList) := fun h => absurd (h ▸ hwed) (by decide)
  have hor : ¬(isSubstr ("tue".toList) (normText s) = true ∨
      isSubstr ("tues".toList) (normText s) = true) := by
    rintro (h | h)
    · exact absurd h (by rw [htue]; exact Bool.false_ne_true)
    · exact absurd h (by rw [htues]; exact Bool.false_ne_true)
  rcases ham with hax | hpx
  · simp_all [abbreviateDateRequested]
  · cases haz : isSubstr ("am".toList) (normText s)
    · simp_all [abbreviateDateRequested]
    · simp_all [abbreviateDateRequested]

theorem ampm_fallback_amended_witness : abbreviateDateRequested "3pm" = "3PM" :=
  (ampm_fallback_amended "3pm" (Or.inr (by decide)) (by decide) (by decide)
      (by decide)).trans (by decide)
